import Mathlib

/-!
Verification of the `fix-imports` script.

The script rewrites `import \x7b ... \x7d from '@zen/tui';` declarations in a
file: it inserts a missing comma between an identifier and `renderApp` or
`FullscreenLayout`, appends `FullscreenLayout` to the import list when the
usage marker `<FullscreenLayout>` occurs anywhere in the file and the symbol
is not already mentioned in the matched statement, and reconstructs the
trailing clause as ` from '@zen/tui';` (normalizing quotes and spacing).

The regular expressions used by the script are deterministic on their
character classes (no backtracking is ever needed: a greedy run of word
characters, whitespace, or non-brace characters is always followed by a
character outside the class), so each pattern is embedded as a total
matcher on `List Char`.  `re.sub` is embedded as a left-to-right scan that
tries the matcher at every position and, on success, emits the replacement
and resumes after the match, exactly like the Python engine.  Character
classes (`\s`, `\w`) are modelled over their ASCII meaning.

Scanning functions take an explicit fuel argument (instantiated with the
length of the input, which is always sufficient because every step consumes
at least one character) so that all definitions are structurally recursive
and evaluate by `decide`/`rfl`.
-/

set_option maxHeartbeats 1000000

/-- ASCII whitespace, the characters matched by the regex class `\s`. -/
def isSpace (c : Char) : Bool :=
  c == ' ' || c == '\t' || c == '\n' || c == '\r' || c == '\x0b' || c == '\x0c'

/-- ASCII word characters, the characters matched by the regex class `\w`. -/
def isWordChar (c : Char) : Bool :=
  c.isAlphanum || c == '_'

/-- Any character other than a closing brace, the regex class excluding the brace. -/
def notBrace (c : Char) : Bool :=
  !(c == '\x7d')

/-- The literal `import`. -/
def impLit : List Char := ['i', 'm', 'p', 'o', 'r', 't']

/-- The literal `from`. -/
def fromLit : List Char := ['f', 'r', 'o', 'm']

/-- The literal `renderApp`. -/
def raLit : List Char := ['r', 'e', 'n', 'd', 'e', 'r', 'A', 'p', 'p']

/-- The literal `FullscreenLayout`. -/
def flLit : List Char :=
  ['F', 'u', 'l', 'l', 's', 'c', 'r', 'e', 'e', 'n', 'L', 'a', 'y', 'o', 'u', 't']

/-- The module string `@zen/tui`. -/
def modLit : List Char := ['@', 'z', 'e', 'n', '/', 't', 'u', 'i']

/-- The usage marker `<FullscreenLayout>`. -/
def markerLit : List Char := '<' :: (flLit ++ ['>'])

/-- The normalized trailing clause ` from '@zen/tui';` appended to every
rewritten statement. -/
def fromClause : List Char := ' ' :: (fromLit ++ (' ' :: '\'' :: (modLit ++ ['\'', ';'])))

/-- Strip a literal prefix, returning the remainder on success. -/
def stripPrefixL : List Char → List Char → Option (List Char)
  | [], s => some s
  | _ :: _, [] => none
  | p :: ps, c :: cs => if p = c then stripPrefixL ps cs else none

/-- Python substring containment (the `in` operator on strings). -/
def containsSub (pat : List Char) : List Char → Bool
  | [] => pat.isEmpty
  | c :: cs => pat.isPrefixOf (c :: cs) || containsSub pat cs

/-- Match `\s+`: a nonempty run of whitespace; returns the run and the rest. -/
def expectWSplus (s : List Char) : Option (List Char × List Char) :=
  let w := s.takeWhile isSpace
  if w.isEmpty then none else some (w, s.dropWhile isSpace)

/-- Match a single quote character, `'` or `"`. -/
def expectQuote : List Char → Option (List Char)
  | [] => none
  | c :: r => if c = '\'' ∨ c = '"' then some r else none

/-- Match one fixed character. -/
def expectChar (ch : Char) : List Char → Option (List Char)
  | [] => none
  | c :: r => if c = ch then some r else none

/-- Match the tail `['"]@zen/tui['"];` of the import pattern. -/
def modTailCheck (s : List Char) : Option (List Char) :=
  (expectQuote s).bind fun s1 =>
  (stripPrefixL modLit s1).bind fun s2 =>
  (expectQuote s2).bind fun s3 =>
  expectChar ';' s3

/-- Match the pattern `(import\s+\x7b[^\x7d]+\x7d)\s+from\s+['"]@zen/tui['"];`
at the start of `s`; on success returns the captured group (the text from
`import` through the closing brace) and the input remaining after the match. -/
def matchImportAux (s : List Char) : Option (List Char × List Char) :=
  (stripPrefixL impLit s).bind fun s1 =>
  (expectWSplus s1).bind fun p1 =>
  (expectChar '\x7b' p1.2).bind fun s3 =>
  if (s3.takeWhile notBrace).isEmpty then none else
  (expectChar '\x7d' (s3.dropWhile notBrace)).bind fun s5 =>
  (expectWSplus s5).bind fun p2 =>
  (stripPrefixL fromLit p2.2).bind fun s6 =>
  (expectWSplus s6).bind fun p3 =>
  (modTailCheck p3.2).map fun rest =>
    (impLit ++ p1.1 ++ '\x7b' :: (s3.takeWhile notBrace ++ '\x7d' :: []), rest)

/-- Match the pattern `(\w+)\s+(renderApp|FullscreenLayout)` at the start of
`s`; on success returns the first group, the matched alternative, and the
input remaining after the match. -/
def matchSepAt (s : List Char) : Option (List Char × List Char × List Char) :=
  let w := s.takeWhile isWordChar
  if w.isEmpty then none else
  (expectWSplus (s.dropWhile isWordChar)).bind fun p =>
  match stripPrefixL raLit p.2 with
  | some r => some (w, raLit, r)
  | none =>
    match stripPrefixL flLit p.2 with
    | some r => some (w, flLit, r)
    | none => none

/-- Match the pattern `(\w+)\s*\x7d` at the start of `s`; on success returns
the first group and the input remaining after the match. -/
def matchCloseAt (s : List Char) : Option (List Char × List Char) :=
  let w := s.takeWhile isWordChar
  if w.isEmpty then none else
  (expectChar '\x7d' ((s.dropWhile isWordChar).dropWhile isSpace)).map fun r => (w, r)

/-- Fueled scan of `re.sub` for the separator-repair pattern
`(\w+)\s+(renderApp|FullscreenLayout)` with replacement `\1, \2`. -/
def commaFixF : Nat → List Char → List Char
  | 0, s => s
  | _ + 1, [] => []
  | f + 1, c :: cs =>
    match matchSepAt (c :: cs) with
    | some (w, lit, rest) => w ++ ',' :: ' ' :: (lit ++ commaFixF f rest)
    | none => c :: commaFixF f cs

/-- The separator repair: `re.sub(r'(\w+)\s+(renderApp|FullscreenLayout)', r'\1, \2', stmt)`. -/
def commaFix (s : List Char) : List Char := commaFixF s.length s

/-- Fueled scan of `re.sub` for the missing-symbol pattern `(\w+)\s*\x7d`
with replacement `\1, FullscreenLayout\x7d`. -/
def addFLF : Nat → List Char → List Char
  | 0, s => s
  | _ + 1, [] => []
  | f + 1, c :: cs =>
    match matchCloseAt (c :: cs) with
    | some (w, rest) => w ++ ',' :: ' ' :: (flLit ++ '\x7d' :: addFLF f rest)
    | none => c :: addFLF f cs

/-- The missing-symbol repair: `re.sub(r'(\w+)\s*\x7d', r'\1, FullscreenLayout\x7d', stmt)`. -/
def addFL (s : List Char) : List Char := addFLF s.length s

/-- The body of `fix_import_line` without the trailing clause: comma repair,
then conditional `FullscreenLayout` insertion.  The presence check on the
statement is made before the comma repair, as in the source. -/
def fixedStmt (hasUsage : Bool) (stmt : List Char) : List Char :=
  let hasImport := containsSub flLit stmt
  let stmt1 := commaFix stmt
  if hasUsage && !hasImport then addFL stmt1 else stmt1

/-- `fix_import_line`: the replacement computed for one matched declaration. -/
def fix_import_line (hasUsage : Bool) (stmt : List Char) : List Char :=
  fixedStmt hasUsage stmt ++ fromClause

/-- Fueled scan of `re.sub` over the whole file content for the import
pattern, replacing each non-overlapping match via `fix_import_line`. -/
def fixScanF : Nat → Bool → List Char → List Char
  | 0, _, s => s
  | _ + 1, _, [] => []
  | f + 1, u, c :: cs =>
    match matchImportAux (c :: cs) with
    | some (g, rest) => fix_import_line u g ++ fixScanF f u rest
    | none => c :: fixScanF f u cs

/-- The scan with its fuel instantiated. -/
def fixScan (u : Bool) (s : List Char) : List Char := fixScanF s.length u s

/-- `fix_imports`: the whole-file transform.  The usage flag is the presence
of the marker in the original content (the closure in the source reads the
unmodified `content` variable during the substitution). -/
def fix_imports (content : List Char) : List Char :=
  fixScan (containsSub markerLit content) content

/-- The error line `Error processing <path>: <msg>` printed by the handler. -/
def errLog (path msg : List Char) : List Char :=
  ("Error processing ").toList ++ path ++ (": ").toList ++ msg

/-- `process_file`, with the file system made explicit: `readRes` is the
result of reading the file and `writeRes` the result a write attempt would
have.  Returns the boolean result of the function, the list of write
attempts performed (each with the content written), and the error line
logged, if any.  Any read or write exception is caught and turned into a
`false` result with a log line, as in the source. -/
def process_file (path : List Char) (readRes : Except (List Char) (List Char))
    (writeRes : Except (List Char) Unit) :
    Bool × List (List Char) × Option (List Char) :=
  match readRes with
  | Except.error e => (false, [], some (errLog path e))
  | Except.ok content =>
    if containsSub raLit content = false then (false, [], none)
    else
      let new_content := fix_imports content
      if new_content ≠ content then
        match writeRes with
        | Except.error e => (false, [new_content], some (errLog path e))
        | Except.ok _ => (true, [new_content], none)
      else (false, [], none)

/-- The walk in `main`: process every enumerated file in order and count the
modified ones.  Each list element carries the file's path and the outcomes
its read and write would have. -/
def main_walk
    (files : List (List Char × Except (List Char) (List Char) × Except (List Char) Unit)) :
    Nat :=
  files.foldl (fun acc f => if (process_file f.1 f.2.1 f.2.2).1 then acc + 1 else acc) 0

/-! ### Basic list helpers -/

theorem stripPrefixL_some : ∀ (p s r : List Char), stripPrefixL p s = some r → s = p ++ r := by
  intro p
  induction p with
  | nil =>
    intro s r h
    simp [stripPrefixL] at h
    simp [h]
  | cons a ps ih =>
    intro s r h
    cases s with
    | nil => simp [stripPrefixL] at h
    | cons c cs =>
      by_cases hac : a = c
      · subst hac
        simp [stripPrefixL] at h
        have := ih cs r h
        simp [this]
      · simp [stripPrefixL, hac] at h

theorem stripPrefixL_append : ∀ (p r : List Char), stripPrefixL p (p ++ r) = some r := by
  intro p
  induction p with
  | nil => intro r; simp [stripPrefixL]
  | cons a ps ih => intro r; simp [stripPrefixL, ih]

theorem takeWhile_all_append (Q : Char → Bool) :
    ∀ (w : List Char) (c : Char) (r : List Char), w.all Q = true → Q c = false →
    (w ++ c :: r).takeWhile Q = w := by
  intro w
  induction w with
  | nil =>
    intro c r _ hc
    simp [List.takeWhile_cons, hc]
  | cons a ws ih =>
    intro c r hw hc
    simp only [List.all_cons, Bool.and_eq_true] at hw
    simp [List.takeWhile_cons, hw.1, ih c r hw.2 hc]

theorem dropWhile_all_append (Q : Char → Bool) :
    ∀ (w : List Char) (c : Char) (r : List Char), w.all Q = true → Q c = false →
    (w ++ c :: r).dropWhile Q = c :: r := by
  intro w
  induction w with
  | nil =>
    intro c r _ hc
    simp [List.dropWhile_cons, hc]
  | cons a ws ih =>
    intro c r hw hc
    simp only [List.all_cons, Bool.and_eq_true] at hw
    simp [List.dropWhile_cons, hw.1, ih c r hw.2 hc]

theorem prefix_takeWhile (Q : Char → Bool) :
    ∀ (p s : List Char), p <+: s → p.all Q = true → p <+: s.takeWhile Q := by
  intro p
  induction p with
  | nil => intro s _ _; exact List.nil_prefix
  | cons a ps ih =>
    intro s hp hall
    cases s with
    | nil => simp at hp
    | cons b bs =>
      rw [List.cons_prefix_cons] at hp
      obtain ⟨rfl, hp2⟩ := hp
      simp only [List.all_cons, Bool.and_eq_true] at hall
      rw [List.takeWhile_cons, hall.1]
      exact List.cons_prefix_cons.mpr ⟨rfl, ih bs hp2 hall.2⟩

theorem containsSub_iff (pat : List Char) : ∀ s, containsSub pat s = true ↔ pat <:+: s := by
  intro s
  induction s with
  | nil => simp [containsSub, List.isEmpty_iff]
  | cons c cs ih =>
    simp [containsSub, List.infix_cons_iff, ih, List.isPrefixOf_iff_prefix]

theorem prefix_append_split : ∀ (p a b : List Char), p <+: a ++ b →
    p <+: a ∨ ∃ s2, p = a ++ s2 ∧ s2 <+: b := by
  intro p a
  induction a generalizing p with
  | nil =>
    intro b h
    right
    exact ⟨p, by simp, h⟩
  | cons x a' ih =>
    intro b h
    cases p with
    | nil => left; exact List.nil_prefix
    | cons y p' =>
      rw [List.cons_append, List.cons_prefix_cons] at h
      obtain ⟨rfl, h2⟩ := h
      rcases ih p' b h2 with h3 | ⟨s2, rfl, h4⟩
      · left
        exact List.cons_prefix_cons.mpr ⟨rfl, h3⟩
      · right
        exact ⟨s2, by simp, h4⟩

theorem infix_append_split : ∀ (p a b : List Char), p <:+: a ++ b →
    p <:+: a ∨ p <:+: b ∨
      ∃ s1 s2, p = s1 ++ s2 ∧ s1 ≠ [] ∧ s2 ≠ [] ∧ s1 <:+ a ∧ s2 <+: b := by
  intro p a
  induction a generalizing p with
  | nil =>
    intro b h
    right; left
    simpa using h
  | cons x a' ih =>
    intro b h
    rw [List.cons_append, List.infix_cons_iff] at h
    rcases h with h | h
    · rw [← List.cons_append] at h
      rcases prefix_append_split p (x :: a') b h with h2 | ⟨s2, rfl, h3⟩
      · left; exact h2.isInfix
      · by_cases hs2 : s2 = []
        · subst hs2
          left
          simp
        · right; right
          exact ⟨x :: a', s2, rfl, by simp, hs2, List.suffix_refl _, h3⟩
    · rcases ih p b h with h2 | h2 | ⟨s1, s2, rfl, h3, h4, h5, h6⟩
      · left; exact List.infix_cons h2
      · right; left; exact h2
      · right; right
        exact ⟨s1, s2, rfl, h3, h4, h5.trans (List.suffix_cons x a'), h6⟩

theorem space_not_word : ∀ c : Char, isSpace c = true → isWordChar c = false := by
  intro c h
  simp only [isSpace, Bool.or_eq_true, beq_iff_eq] at h
  rcases h with ((((h | h) | h) | h) | h) | h <;> subst h <;> decide

/-! ### Decomposition of successful matches -/

theorem expectWSplus_some {s w r : List Char} (h : expectWSplus s = some (w, r)) :
    w = s.takeWhile isSpace ∧ r = s.dropWhile isSpace ∧ w ≠ [] ∧
    w.all isSpace = true ∧ s = w ++ r := by
  simp only [expectWSplus] at h
  by_cases he : (s.takeWhile isSpace).isEmpty
  · rw [if_pos he] at h
    cases h
  · rw [if_neg he] at h
    simp only [Option.some.injEq, Prod.mk.injEq] at h
    obtain ⟨rfl, rfl⟩ := h
    refine ⟨rfl, rfl, ?_, List.all_takeWhile, (List.takeWhile_append_dropWhile ..).symm⟩
    intro hn
    rw [hn] at he
    exact he rfl

theorem expectQuote_some {s r : List Char} (h : expectQuote s = some r) :
    ∃ q, (q = '\'' ∨ q = '"') ∧ s = q :: r := by
  cases s with
  | nil => cases h
  | cons c cs =>
    by_cases hq : c = '\'' ∨ c = '"'
    · rw [expectQuote, if_pos hq] at h
      injection h with h1
      exact ⟨c, hq, by rw [h1]⟩
    · rw [expectQuote, if_neg hq] at h
      cases h

theorem expectChar_some {ch : Char} {s r : List Char} (h : expectChar ch s = some r) :
    s = ch :: r := by
  cases s with
  | nil => cases h
  | cons c cs =>
    by_cases hc : c = ch
    · rw [expectChar, if_pos hc] at h
      injection h with h1
      rw [hc, h1]
    · rw [expectChar, if_neg hc] at h
      cases h

theorem modTailCheck_some {s r : List Char} (h : modTailCheck s = some r) :
    ∃ q1 q2, (q1 = '\'' ∨ q1 = '"') ∧ (q2 = '\'' ∨ q2 = '"') ∧
      s = q1 :: (modLit ++ q2 :: ';' :: r) := by
  simp only [modTailCheck] at h
  cases hq1 : expectQuote s with
  | none => rw [hq1] at h; cases h
  | some s1 =>
    rw [hq1] at h
    simp only [Option.some_bind] at h
    obtain ⟨q1, hq1v, rfl⟩ := expectQuote_some hq1
    cases hm : stripPrefixL modLit s1 with
    | none => rw [hm] at h; cases h
    | some s2 =>
      rw [hm] at h
      simp only [Option.some_bind] at h
      have hs1 : s1 = modLit ++ s2 := stripPrefixL_some _ _ _ hm
      cases hq2 : expectQuote s2 with
      | none => rw [hq2] at h; cases h
      | some s3 =>
        rw [hq2] at h
        simp only [Option.some_bind] at h
        obtain ⟨q2, hq2v, rfl⟩ := expectQuote_some hq2
        have hs3 := expectChar_some h
        exact ⟨q1, q2, hq1v, hq2v, by rw [hs1, hs3]⟩

theorem matchSepAt_some {s w lit rest : List Char}
    (h : matchSepAt s = some (w, lit, rest)) :
    w = s.takeWhile isWordChar ∧ w ≠ [] ∧ w.all isWordChar = true ∧
    (lit = raLit ∨ lit = flLit) ∧
    ∃ ws, ws ≠ [] ∧ ws.all isSpace = true ∧ s = w ++ (ws ++ (lit ++ rest)) := by
  simp only [matchSepAt] at h
  by_cases he : (s.takeWhile isWordChar).isEmpty
  · rw [if_pos he] at h
    cases h
  · rw [if_neg he] at h
    cases hw : expectWSplus (s.dropWhile isWordChar) with
    | none => rw [hw] at h; cases h
    | some p =>
      rw [hw] at h
      obtain ⟨pw, pr⟩ := p
      simp only [Option.some_bind] at h
      obtain ⟨-, -, hpne, hpall, hpsplit⟩ := expectWSplus_some hw
      have hsplit : s = s.takeWhile isWordChar ++ (pw ++ pr) := by
        rw [← hpsplit]
        exact (List.takeWhile_append_dropWhile ..).symm
      have hne : s.takeWhile isWordChar ≠ [] := by
        intro hn
        rw [hn] at he
        exact he rfl
      cases hra : stripPrefixL raLit pr with
      | some r =>
        rw [hra] at h
        simp only [Option.some.injEq, Prod.mk.injEq] at h
        obtain ⟨rfl, rfl, rfl⟩ := h
        refine ⟨rfl, hne, List.all_takeWhile, Or.inl rfl, pw, hpne, hpall, ?_⟩
        rw [← stripPrefixL_some _ _ _ hra]
        exact hsplit
      | none =>
        rw [hra] at h
        cases hfl : stripPrefixL flLit pr with
        | some r =>
          rw [hfl] at h
          simp only [Option.some.injEq, Prod.mk.injEq] at h
          obtain ⟨rfl, rfl, rfl⟩ := h
          refine ⟨rfl, hne, List.all_takeWhile, Or.inr rfl, pw, hpne, hpall, ?_⟩
          rw [← stripPrefixL_some _ _ _ hfl]
          exact hsplit
        | none =>
          rw [hfl] at h
          cases h

theorem matchCloseAt_some {s w rest : List Char}
    (h : matchCloseAt s = some (w, rest)) :
    w = s.takeWhile isWordChar ∧ w ≠ [] ∧ w.all isWordChar = true ∧
    ∃ ws, ws.all isSpace = true ∧ s = w ++ (ws ++ '\x7d' :: rest) := by
  simp only [matchCloseAt] at h
  by_cases he : (s.takeWhile isWordChar).isEmpty
  · rw [if_pos he] at h
    cases h
  · rw [if_neg he] at h
    have hne : s.takeWhile isWordChar ≠ [] := by
      intro hn
      rw [hn] at he
      exact he rfl
    cases hd : expectChar '\x7d' ((s.dropWhile isWordChar).dropWhile isSpace) with
    | none => rw [hd] at h; cases h
    | some r =>
      rw [hd] at h
      simp only [Option.map_some', Option.some.injEq, Prod.mk.injEq] at h
      obtain ⟨rfl, rfl⟩ := h
      refine ⟨rfl, hne, List.all_takeWhile, (s.dropWhile isWordChar).takeWhile isSpace,
        List.all_takeWhile, ?_⟩
      have h1 : s.dropWhile isWordChar =
          (s.dropWhile isWordChar).takeWhile isSpace ++ ('\x7d' :: r) := by
        conv_lhs => rw [← List.takeWhile_append_dropWhile (p := isSpace)
          (l := s.dropWhile isWordChar)]
        rw [expectChar_some hd]
      conv_lhs => rw [← List.takeWhile_append_dropWhile (p := isWordChar) (l := s), h1]

theorem impLit_len : impLit.length = 6 := rfl

theorem fromLit_len : fromLit.length = 4 := rfl

theorem modLit_len : modLit.length = 8 := rfl

theorem matchImportAux_some {s g rest : List Char} (h : matchImportAux s = some (g, rest)) :
    ∃ ws1 inner ws2 ws3 q1 q2,
      ws1 ≠ [] ∧ ws1.all isSpace = true ∧ inner ≠ [] ∧ inner.all notBrace = true ∧
      ws2 ≠ [] ∧ ws2.all isSpace = true ∧ ws3 ≠ [] ∧ ws3.all isSpace = true ∧
      (q1 = '\'' ∨ q1 = '"') ∧ (q2 = '\'' ∨ q2 = '"') ∧
      g = impLit ++ ws1 ++ '\x7b' :: (inner ++ '\x7d' :: []) ∧
      s = impLit ++ ws1 ++ '\x7b' :: (inner ++ '\x7d' :: (ws2 ++ (fromLit ++ (ws3 ++
          q1 :: (modLit ++ q2 :: ';' :: rest))))) := by
  simp only [matchImportAux] at h
  cases h0 : stripPrefixL impLit s with
  | none => rw [h0] at h; cases h
  | some s1 =>
    rw [h0] at h
    simp only [Option.some_bind] at h
    have hs : s = impLit ++ s1 := stripPrefixL_some _ _ _ h0
    cases h1 : expectWSplus s1 with
    | none => rw [h1] at h; cases h
    | some p1 =>
      rw [h1] at h
      simp only [Option.some_bind] at h
      obtain ⟨ws1, r1⟩ := p1
      obtain ⟨-, -, hw1, hall1, hsp1⟩ := expectWSplus_some h1
      cases h2 : expectChar '\x7b' r1 with
      | none => rw [h2] at h; cases h
      | some s3 =>
        rw [h2] at h
        simp only [Option.some_bind] at h
        have hr1 : r1 = '\x7b' :: s3 := expectChar_some h2
        by_cases hie : (s3.takeWhile notBrace).isEmpty
        · rw [if_pos hie] at h; cases h
        · rw [if_neg hie] at h
          cases h3 : expectChar '\x7d' (s3.dropWhile notBrace) with
          | none => rw [h3] at h; cases h
          | some s5 =>
            rw [h3] at h
            simp only [Option.some_bind] at h
            have hs3 : s3 = s3.takeWhile notBrace ++ ('\x7d' :: s5) := by
              conv_lhs => rw [← List.takeWhile_append_dropWhile (p := notBrace) (l := s3),
                expectChar_some h3]
            cases h4 : expectWSplus s5 with
            | none => rw [h4] at h; cases h
            | some p2 =>
              rw [h4] at h
              simp only [Option.some_bind] at h
              obtain ⟨ws2, r2⟩ := p2
              obtain ⟨-, -, hw2, hall2, hsp2⟩ := expectWSplus_some h4
              cases h5 : stripPrefixL fromLit r2 with
              | none => rw [h5] at h; cases h
              | some s6 =>
                rw [h5] at h
                simp only [Option.some_bind] at h
                have hr2 : r2 = fromLit ++ s6 := stripPrefixL_some _ _ _ h5
                cases h6 : expectWSplus s6 with
                | none => rw [h6] at h; cases h
                | some p3 =>
                  rw [h6] at h
                  simp only [Option.some_bind] at h
                  obtain ⟨ws3, r3⟩ := p3
                  obtain ⟨-, -, hw3, hall3, hsp3⟩ := expectWSplus_some h6
                  cases h7 : modTailCheck r3 with
                  | none => rw [h7] at h; cases h
                  | some rr =>
                    rw [h7] at h
                    simp only [Option.map_some', Option.some.injEq, Prod.mk.injEq] at h
                    obtain ⟨hg, rfl⟩ := h
                    obtain ⟨q1, q2, hq1, hq2, hr3⟩ := modTailCheck_some h7
                    refine ⟨ws1, s3.takeWhile notBrace, ws2, ws3, q1, q2, hw1, hall1,
                      ?_, List.all_takeWhile, hw2, hall2, hw3, hall3, hq1, hq2,
                      hg.symm, ?_⟩
                    · intro hn
                      rw [hn] at hie
                      exact hie rfl
                    · rw [hs, hsp1, hr1]
                      conv_lhs => rw [hs3]
                      rw [hsp2, hr2, hsp3, hr3]
                      simp [List.append_assoc]

theorem matchImportAux_length {s g rest : List Char}
    (h : matchImportAux s = some (g, rest)) : rest.length < s.length := by
  obtain ⟨ws1, inner, ws2, ws3, q1, q2, -, -, -, -, -, -, -, -, -, -, -, hs⟩ :=
    matchImportAux_some h
  rw [hs]
  simp only [List.length_append, List.length_cons, impLit_len, fromLit_len, modLit_len]
  omega

theorem matchSepAt_length {s w lit rest : List Char}
    (h : matchSepAt s = some (w, lit, rest)) : rest.length < s.length := by
  obtain ⟨-, hne, -, -, ws, hwsne, -, hs⟩ := matchSepAt_some h
  have h1 : 0 < w.length := List.length_pos.mpr hne
  have h2 : 0 < ws.length := List.length_pos.mpr hwsne
  rw [hs]
  simp only [List.length_append]
  omega

theorem matchCloseAt_length {s w rest : List Char}
    (h : matchCloseAt s = some (w, rest)) : rest.length < s.length := by
  obtain ⟨-, hne, -, ws, -, hs⟩ := matchCloseAt_some h
  have h1 : 0 < w.length := List.length_pos.mpr hne
  rw [hs]
  simp only [List.length_append, List.length_cons]
  omega

/-! ### Fuel sufficiency and unfolding equations for the scans -/

theorem matchSepAt_nil : matchSepAt [] = none := rfl

theorem matchCloseAt_nil : matchCloseAt [] = none := rfl

theorem matchImportAux_nil : matchImportAux [] = none := rfl

theorem commaFixF_fuel : ∀ (f : Nat) (s : List Char), s.length ≤ f →
    commaFixF f s = commaFix s := by
  intro f
  induction f using Nat.strong_induction_on with
  | _ f ih =>
    intro s hf
    cases f with
    | zero =>
      cases s with
      | nil => rfl
      | cons c cs => simp at hf
    | succ f =>
      cases s with
      | nil => rfl
      | cons c cs =>
        have hcs : cs.length ≤ f := by simpa using hf
        cases hm : matchSepAt (c :: cs) with
        | none =>
          have e1 : commaFixF (f + 1) (c :: cs) = c :: commaFixF f cs := by
            simp only [commaFixF, hm]
          have e2 : commaFix (c :: cs) = c :: commaFixF cs.length cs := by
            simp only [commaFix, List.length_cons, commaFixF, hm]
          rw [e1, e2, ih f (Nat.lt_succ_self f) cs hcs]
          rfl
        | some x =>
          obtain ⟨w, lit, rest⟩ := x
          have hlen : rest.length < cs.length + 1 := by
            simpa using matchSepAt_length hm
          have e1 : commaFixF (f + 1) (c :: cs) =
              w ++ ',' :: ' ' :: (lit ++ commaFixF f rest) := by
            simp only [commaFixF, hm]
          have e2 : commaFix (c :: cs) =
              w ++ ',' :: ' ' :: (lit ++ commaFixF cs.length rest) := by
            simp only [commaFix, List.length_cons, commaFixF, hm]
          rw [e1, e2, ih f (Nat.lt_succ_self f) rest (by omega),
            ih cs.length (by omega) rest (by omega)]

theorem commaFix_nil : commaFix [] = [] := rfl

theorem commaFix_cons_none {c : Char} {cs : List Char} (h : matchSepAt (c :: cs) = none) :
    commaFix (c :: cs) = c :: commaFix cs := by
  simp only [commaFix, List.length_cons, commaFixF, h]

theorem commaFix_cons_some {s w lit rest : List Char}
    (h : matchSepAt s = some (w, lit, rest)) :
    commaFix s = w ++ ',' :: ' ' :: (lit ++ commaFix rest) := by
  cases s with
  | nil => rw [matchSepAt_nil] at h; cases h
  | cons c cs =>
    have hlen : rest.length ≤ cs.length := by
      have := matchSepAt_length h
      simp at this
      omega
    simp only [commaFix, List.length_cons, commaFixF, h]
    rw [commaFixF_fuel cs.length rest hlen]
    rfl

theorem addFLF_fuel : ∀ (f : Nat) (s : List Char), s.length ≤ f →
    addFLF f s = addFL s := by
  intro f
  induction f using Nat.strong_induction_on with
  | _ f ih =>
    intro s hf
    cases f with
    | zero =>
      cases s with
      | nil => rfl
      | cons c cs => simp at hf
    | succ f =>
      cases s with
      | nil => rfl
      | cons c cs =>
        have hcs : cs.length ≤ f := by simpa using hf
        cases hm : matchCloseAt (c :: cs) with
        | none =>
          have e1 : addFLF (f + 1) (c :: cs) = c :: addFLF f cs := by
            simp only [addFLF, hm]
          have e2 : addFL (c :: cs) = c :: addFLF cs.length cs := by
            simp only [addFL, List.length_cons, addFLF, hm]
          rw [e1, e2, ih f (Nat.lt_succ_self f) cs hcs]
          rfl
        | some x =>
          obtain ⟨w, rest⟩ := x
          have hlen : rest.length < cs.length + 1 := by
            simpa using matchCloseAt_length hm
          have e1 : addFLF (f + 1) (c :: cs) =
              w ++ ',' :: ' ' :: (flLit ++ '\x7d' :: addFLF f rest) := by
            simp only [addFLF, hm]
          have e2 : addFL (c :: cs) =
              w ++ ',' :: ' ' :: (flLit ++ '\x7d' :: addFLF cs.length rest) := by
            simp only [addFL, List.length_cons, addFLF, hm]
          rw [e1, e2, ih f (Nat.lt_succ_self f) rest (by omega),
            ih cs.length (by omega) rest (by omega)]

theorem addFL_cons_none {c : Char} {cs : List Char} (h : matchCloseAt (c :: cs) = none) :
    addFL (c :: cs) = c :: addFL cs := by
  simp only [addFL, List.length_cons, addFLF, h]

theorem addFL_cons_some {s w rest : List Char} (h : matchCloseAt s = some (w, rest)) :
    addFL s = w ++ ',' :: ' ' :: (flLit ++ '\x7d' :: addFL rest) := by
  cases s with
  | nil => rw [matchCloseAt_nil] at h; cases h
  | cons c cs =>
    have hlen : rest.length ≤ cs.length := by
      have := matchCloseAt_length h
      simp at this
      omega
    simp only [addFL, List.length_cons, addFLF, h]
    rw [addFLF_fuel cs.length rest hlen]
    rfl

theorem fixScanF_fuel : ∀ (f : Nat) (u : Bool) (s : List Char), s.length ≤ f →
    fixScanF f u s = fixScan u s := by
  intro f
  induction f using Nat.strong_induction_on with
  | _ f ih =>
    intro u s hf
    cases f with
    | zero =>
      cases s with
      | nil => rfl
      | cons c cs => simp at hf
    | succ f =>
      cases s with
      | nil => rfl
      | cons c cs =>
        have hcs : cs.length ≤ f := by simpa using hf
        cases hm : matchImportAux (c :: cs) with
        | none =>
          have e1 : fixScanF (f + 1) u (c :: cs) = c :: fixScanF f u cs := by
            simp only [fixScanF, hm]
          have e2 : fixScan u (c :: cs) = c :: fixScanF cs.length u cs := by
            simp only [fixScan, List.length_cons, fixScanF, hm]
          rw [e1, e2, ih f (Nat.lt_succ_self f) u cs hcs]
          rfl
        | some x =>
          obtain ⟨g, rest⟩ := x
          have hlen : rest.length < cs.length + 1 := by
            simpa using matchImportAux_length hm
          have e1 : fixScanF (f + 1) u (c :: cs) =
              fix_import_line u g ++ fixScanF f u rest := by
            simp only [fixScanF, hm]
          have e2 : fixScan u (c :: cs) =
              fix_import_line u g ++ fixScanF cs.length u rest := by
            simp only [fixScan, List.length_cons, fixScanF, hm]
          rw [e1, e2, ih f (Nat.lt_succ_self f) u rest (by omega),
            ih cs.length (by omega) u rest (by omega)]

theorem fixScan_cons_none {u : Bool} {c : Char} {cs : List Char}
    (h : matchImportAux (c :: cs) = none) :
    fixScan u (c :: cs) = c :: fixScan u cs := by
  simp only [fixScan, List.length_cons, fixScanF, h]

theorem fixScan_cons_some {u : Bool} {s g rest : List Char}
    (h : matchImportAux s = some (g, rest)) :
    fixScan u s = fix_import_line u g ++ fixScan u rest := by
  cases s with
  | nil => rw [matchImportAux_nil] at h; cases h
  | cons c cs =>
    have hlen : rest.length ≤ cs.length := by
      have := matchImportAux_length h
      simp at this
      omega
    simp only [fixScan, List.length_cons, fixScanF, h]
    rw [fixScanF_fuel cs.length u rest hlen]
    rfl

/-! ### Matching a well-formed declaration -/

theorem expectChar_cons (c : Char) (r : List Char) : expectChar c (c :: r) = some r := by
  simp [expectChar]

theorem expectWSplus_all {w : List Char} {c : Char} {r : List Char}
    (hw : w ≠ []) (ha : w.all isSpace = true) (hc : isSpace c = false) :
    expectWSplus (w ++ c :: r) = some (w, c :: r) := by
  simp only [expectWSplus]
  rw [takeWhile_all_append isSpace w c r ha hc, dropWhile_all_append isSpace w c r ha hc]
  simp [List.isEmpty_iff, hw]

theorem modTailCheck_decl (q1 q2 : Char) (rest : List Char)
    (hq1 : q1 = '\'' ∨ q1 = '"') (hq2 : q2 = '\'' ∨ q2 = '"') :
    modTailCheck (q1 :: (modLit ++ (q2 :: ';' :: rest))) = some rest := by
  simp only [modTailCheck, expectQuote, if_pos hq1, Option.some_bind, stripPrefixL_append,
    if_pos hq2, expectChar, if_pos rfl]
  simp

theorem matchImportAux_decl (ws1 inner ws2 ws3 : List Char) (q1 q2 : Char) (rest : List Char)
    (hw1 : ws1 ≠ []) (ha1 : ws1.all isSpace = true)
    (hin : inner ≠ []) (hain : inner.all notBrace = true)
    (hw2 : ws2 ≠ []) (ha2 : ws2.all isSpace = true)
    (hw3 : ws3 ≠ []) (ha3 : ws3.all isSpace = true)
    (hq1 : q1 = '\'' ∨ q1 = '"') (hq2 : q2 = '\'' ∨ q2 = '"') :
    matchImportAux (impLit ++ ws1 ++ '\x7b' :: (inner ++ '\x7d' :: (ws2 ++ (fromLit ++ (ws3 ++
        q1 :: (modLit ++ q2 :: ';' :: rest)))))) =
      some (impLit ++ ws1 ++ '\x7b' :: (inner ++ '\x7d' :: []), rest) := by
  have hq1s : isSpace q1 = false := by rcases hq1 with h | h <;> subst h <;> rfl
  have hie : inner.isEmpty = false := by simp [List.isEmpty_iff, hin]
  simp only [matchImportAux, List.append_assoc, stripPrefixL_append, Option.some_bind]
  rw [expectWSplus_all hw1 ha1 (show isSpace '\x7b' = false from rfl)]
  simp only [Option.some_bind, expectChar_cons]
  rw [takeWhile_all_append notBrace inner '\x7d' _ hain rfl,
    dropWhile_all_append notBrace inner '\x7d' _ hain rfl, hie]
  simp only [Bool.false_eq_true, if_false, expectChar_cons, Option.some_bind]
  simp only [fromLit, List.cons_append, List.nil_append]
  rw [expectWSplus_all hw2 ha2 (show isSpace 'f' = false from rfl)]
  simp only [Option.some_bind]
  simp only [stripPrefixL, if_true, Option.some_bind]
  rw [expectWSplus_all hw3 ha3 hq1s]
  simp only [Option.some_bind, modTailCheck_decl q1 q2 rest hq1 hq2, Option.map_some']

/-! ### Frame and identity of the whole-file scan -/

theorem fixScan_frame (u : Bool) : ∀ (p s : List Char),
    (∀ i, i < p.length → matchImportAux ((p ++ s).drop i) = none) →
    fixScan u (p ++ s) = p ++ fixScan u s := by
  intro p
  induction p with
  | nil => intro s _; simp
  | cons c p' ih =>
    intro s h
    have h0 : matchImportAux (c :: (p' ++ s)) = none := by
      simpa using h 0 (by simp)
    have hrest : ∀ i, i < p'.length → matchImportAux ((p' ++ s).drop i) = none := by
      intro i hi
      simpa using h (i + 1) (by simp only [List.length_cons]; omega)
    rw [List.cons_append, fixScan_cons_none h0, ih s hrest]
    rfl

theorem fixScan_id (u : Bool) : ∀ (s : List Char),
    (∀ i, matchImportAux (s.drop i) = none) → fixScan u s = s := by
  intro s
  induction s with
  | nil => intro _; rfl
  | cons c cs ih =>
    intro h
    have h0 : matchImportAux (c :: cs) = none := by simpa using h 0
    rw [fixScan_cons_none h0, ih ?_]
    intro i
    simpa using h (i + 1)

/-! ### Preservation of `FullscreenLayout` occurrences by the separator repair -/

theorem infix_append_right {l r : List Char} (x : List Char) (h : l <:+: r) :
    l <:+: x ++ r := by
  obtain ⟨s, t, rfl⟩ := h
  exact ⟨x ++ s, t, by simp⟩

theorem infix_append_left {l r : List Char} (x : List Char) (h : l <:+: r) :
    l <:+: r ++ x := by
  obtain ⟨s, t, rfl⟩ := h
  exact ⟨s, t ++ x, by simp⟩

theorem all_of_infix {Q : Char → Bool} {p s : List Char} (h : p <:+: s)
    (ha : s.all Q = true) : p.all Q = true := by
  rw [List.all_eq_true] at *
  intro c hc
  exact ha c (h.subset hc)

theorem flLit_all_word : flLit.all isWordChar = true := by decide

theorem takeWhile_word_prefix_commaFixF :
    ∀ (f : Nat) (s : List Char), s.takeWhile isWordChar <+: commaFixF f s := by
  intro f
  induction f with
  | zero => intro s; exact List.takeWhile_prefix _
  | succ f ih =>
    intro s
    cases s with
    | nil => simp
    | cons c cs =>
      cases hm : matchSepAt (c :: cs) with
      | some x =>
        obtain ⟨w, lit, rest⟩ := x
        have e : commaFixF (f + 1) (c :: cs) = w ++ ',' :: ' ' :: (lit ++ commaFixF f rest) := by
          simp only [commaFixF, hm]
        rw [e, ← (matchSepAt_some hm).1]
        exact List.prefix_append _ _
      | none =>
        have e : commaFixF (f + 1) (c :: cs) = c :: commaFixF f cs := by
          simp only [commaFixF, hm]
        rw [e, List.takeWhile_cons]
        by_cases hc : isWordChar c = true
        · rw [if_pos hc]
          exact List.cons_prefix_cons.mpr ⟨rfl, ih cs⟩
        · rw [if_neg hc]
          exact List.nil_prefix

theorem prefix_commaFixF {p s : List Char} (hall : p.all isWordChar = true)
    (hp : p <+: s) (f : Nat) : p <+: commaFixF f s :=
  (prefix_takeWhile isWordChar p s hp hall).trans (takeWhile_word_prefix_commaFixF f s)

theorem flLit_infix_commaFixF : ∀ (f : Nat) (s : List Char), flLit <:+: s →
    flLit <:+: commaFixF f s := by
  intro f
  induction f with
  | zero => intro s h; exact h
  | succ f ih =>
    intro s h
    cases s with
    | nil => exact h
    | cons c cs =>
      cases hm : matchSepAt (c :: cs) with
      | none =>
        have e : commaFixF (f + 1) (c :: cs) = c :: commaFixF f cs := by
          simp only [commaFixF, hm]
        rw [List.infix_cons_iff] at h
        rcases h with h | h
        · have := prefix_commaFixF flLit_all_word h (f + 1)
          exact this.isInfix
        · rw [e]
          exact List.infix_cons (ih cs h)
      | some x =>
        obtain ⟨w, lit, rest⟩ := x
        have e : commaFixF (f + 1) (c :: cs) =
            w ++ ',' :: ' ' :: (lit ++ commaFixF f rest) := by
          simp only [commaFixF, hm]
        rw [e]
        obtain ⟨hw, hwne, hwall, hlit, ws, hwsne, hwsall, hs⟩ := matchSepAt_some hm
        rw [hs] at h
        rcases infix_append_split flLit w (ws ++ (lit ++ rest)) h with
          h1 | h1 | ⟨s1, s2, hfl, hs1ne, hs2ne, hs1, hs2⟩
        · exact h1.trans (List.prefix_append w _).isInfix
        · rcases infix_append_split flLit ws (lit ++ rest) h1 with
            h2 | h2 | ⟨t1, t2, hfl2, ht1ne, ht2ne, ht1, ht2⟩
          · exfalso
            have hsp : flLit.all isSpace = true := all_of_infix h2 hwsall
            exact absurd hsp (by decide)
          · rcases infix_append_split flLit lit rest h2 with
              h3 | h3 | ⟨u1, u2, hfl3, hu1ne, hu2ne, hu1, hu2⟩
            · rcases hlit with rfl | rfl
              · exfalso
                have := h3.length_le
                simp [flLit, raLit] at this
              · exact ⟨w ++ [',', ' '], commaFixF f rest, by simp⟩
            · have hrec : flLit <:+: commaFixF f rest := ih rest h3
              have : flLit <:+: [',', ' '] ++ (lit ++ commaFixF f rest) :=
                infix_append_right _ (infix_append_right _ hrec)
              exact infix_append_right w this
            · exfalso
              have hu1p : u1 <+: flLit := ⟨u2, hfl3.symm⟩
              rcases hlit with rfl | rfl
              · have hmem : u1 ∈ raLit.tails := (List.mem_tails _ _).mpr hu1
                have hdec : ∀ t ∈ raLit.tails, t = [] ∨ ¬(t <+: flLit) := by decide
                rcases hdec u1 hmem with h4 | h4
                · exact hu1ne h4
                · exact h4 hu1p
              · have hmem : u1 ∈ flLit.tails := (List.mem_tails _ _).mpr hu1
                have hdec : ∀ t ∈ flLit.tails, t = [] ∨ t = flLit ∨ ¬(t <+: flLit) := by
                  decide
                rcases hdec u1 hmem with h4 | h4 | h4
                · exact hu1ne h4
                · apply hu2ne
                  rw [h4] at hfl3
                  have hlen := congrArg List.length hfl3
                  simp only [List.length_append] at hlen
                  exact List.eq_nil_of_length_eq_zero (by omega)
                · exact h4 hu1p
          · exfalso
            have ht1p : t1 <+: flLit := ⟨t2, hfl2.symm⟩
            have hall1 : t1.all isSpace = true := all_of_infix ht1.isInfix hwsall
            have hall2 : t1.all isWordChar = true := all_of_infix ht1p.isInfix flLit_all_word
            cases t1 with
            | nil => exact ht1ne rfl
            | cons a t' =>
              simp only [List.all_cons, Bool.and_eq_true] at hall1 hall2
              rw [space_not_word a hall1.1] at hall2
              exact absurd hall2.1 (by decide)
        · exfalso
          have hs2w : s2.all isWordChar = true :=
            all_of_infix (show s2 <:+ flLit from ⟨s1, hfl.symm⟩).isInfix flLit_all_word
          cases s2 with
          | nil => exact hs2ne rfl
          | cons a t =>
            cases ws with
            | nil => exact hwsne rfl
            | cons b ws' =>
              rw [List.cons_append, List.cons_prefix_cons] at hs2
              obtain ⟨rfl, -⟩ := hs2
              simp only [List.all_cons, Bool.and_eq_true] at hs2w hwsall
              rw [space_not_word a hwsall.1] at hs2w
              exact absurd hs2w.1 (by decide)

theorem commaFix_infix_fl {s : List Char} (h : flLit <:+: s) : flLit <:+: commaFix s :=
  flLit_infix_commaFixF s.length s h

/-! ### The missing-symbol repair either changes nothing or inserts the symbol -/

theorem addFLF_eq_or_infix : ∀ (f : Nat) (s : List Char),
    addFLF f s = s ∨ flLit <:+: addFLF f s := by
  intro f
  induction f with
  | zero => intro s; left; rfl
  | succ f ih =>
    intro s
    cases s with
    | nil => left; rfl
    | cons c cs =>
      cases hm : matchCloseAt (c :: cs) with
      | none =>
        have e : addFLF (f + 1) (c :: cs) = c :: addFLF f cs := by
          simp only [addFLF, hm]
        rw [e]
        rcases ih cs with h | h
        · left; rw [h]
        · right; exact List.infix_cons h
      | some x =>
        obtain ⟨w, rest⟩ := x
        have e : addFLF (f + 1) (c :: cs) =
            w ++ ',' :: ' ' :: (flLit ++ '\x7d' :: addFLF f rest) := by
          simp only [addFLF, hm]
        rw [e]
        right
        exact ⟨w ++ [',', ' '], '\x7d' :: addFLF f rest, by simp⟩

theorem addFL_eq_or_infix (s : List Char) : addFL s = s ∨ flLit <:+: addFL s :=
  addFLF_eq_or_infix s.length s

/-! ### Declarations whose module string is not `@zen/tui` never match -/

theorem modTailCheck_other {m r : List Char} (q1 q2 : Char)
    (hm : m.all (fun c => !(c == '\'') && !(c == '"')) = true)
    (hq2 : q2 = '\'' ∨ q2 = '"') (hne : m ≠ modLit) :
    modTailCheck (q1 :: (m ++ (q2 :: ';' :: r))) = none := by
  by_cases hq1 : q1 = '\'' ∨ q1 = '"'
  · simp only [modTailCheck, expectQuote, if_pos hq1, Option.some_bind]
    cases hs : stripPrefixL modLit (m ++ (q2 :: ';' :: r)) with
    | none => rfl
    | some s2 =>
      have hdec := stripPrefixL_some _ _ _ hs
      rcases prefix_append_split modLit m (q2 :: ';' :: r) ⟨s2, hdec.symm⟩ with
        hp | ⟨t, hteq, htp⟩
      · obtain ⟨m', rfl⟩ := hp
        cases m' with
        | nil => exact absurd (by simp) hne
        | cons c m'' =>
          have hs2 : s2 = c :: (m'' ++ (q2 :: ';' :: r)) := by
            rw [List.append_assoc] at hdec
            have := List.append_cancel_left hdec
            simp at this
            rw [this]
          rw [hs2]
          have hcq : ¬(c = '\'' ∨ c = '"') := by
            rw [List.all_append, Bool.and_eq_true, List.all_cons, Bool.and_eq_true] at hm
            have := hm.2.1
            simp only [Bool.and_eq_true, Bool.not_eq_true', beq_eq_false_iff_ne] at this
            intro hor
            rcases hor with h | h
            · exact this.1 h
            · exact this.2 h
          simp only [Option.some_bind, expectQuote, if_neg hcq]
          rfl
      · cases t with
        | nil => exact absurd (by simpa using hteq.symm) hne
        | cons a t'' =>
          exfalso
          rw [List.cons_prefix_cons] at htp
          obtain ⟨heq, -⟩ := htp
          have hmem : q2 ∈ modLit := by
            rw [hteq, ← heq]
            exact List.mem_append_right _ (List.mem_cons_self _ _)
          rcases hq2 with rfl | rfl
          · exact absurd hmem (by decide)
          · exact absurd hmem (by decide)
  · simp only [modTailCheck, expectQuote, if_neg hq1]
    rfl

theorem matchImportAux_decl_other (ws1 inner ws2 ws3 : List Char) (q1 q2 : Char)
    (m r : List Char)
    (hw1 : ws1 ≠ []) (ha1 : ws1.all isSpace = true)
    (hin : inner ≠ []) (hain : inner.all notBrace = true)
    (hw2 : ws2 ≠ []) (ha2 : ws2.all isSpace = true)
    (hw3 : ws3 ≠ []) (ha3 : ws3.all isSpace = true)
    (hq1 : q1 = '\'' ∨ q1 = '"') (hq2 : q2 = '\'' ∨ q2 = '"')
    (hm : m.all (fun c => !(c == '\'') && !(c == '"')) = true) (hne : m ≠ modLit) :
    matchImportAux (impLit ++ ws1 ++ '\x7b' :: (inner ++ '\x7d' :: (ws2 ++ (fromLit ++ (ws3 ++
        q1 :: (m ++ (q2 :: ';' :: r))))))) = none := by
  have hq1s : isSpace q1 = false := by rcases hq1 with h | h <;> subst h <;> rfl
  have hie : inner.isEmpty = false := by simp [List.isEmpty_iff, hin]
  simp only [matchImportAux, List.append_assoc, stripPrefixL_append, Option.some_bind]
  rw [expectWSplus_all hw1 ha1 (show isSpace '\x7b' = false from rfl)]
  simp only [Option.some_bind, expectChar_cons]
  rw [takeWhile_all_append notBrace inner '\x7d' _ hain rfl,
    dropWhile_all_append notBrace inner '\x7d' _ hain rfl, hie]
  simp only [Bool.false_eq_true, if_false, expectChar_cons, Option.some_bind]
  simp only [fromLit, List.cons_append, List.nil_append]
  rw [expectWSplus_all hw2 ha2 (show isSpace 'f' = false from rfl)]
  simp only [Option.some_bind]
  simp only [stripPrefixL, if_true, Option.some_bind]
  rw [expectWSplus_all hw3 ha3 hq1s]
  simp only [Option.some_bind, modTailCheck_other q1 q2 hm hq2 hne, Option.map_none']

/-! ### The claims -/

/-- C5: on the input `import \x7b foo renderApp \x7d from '@zen/tui';` the line
fixer returns exactly `import \x7b foo, renderApp \x7d from '@zen/tui';`: a
comma is inserted between the adjacent identifiers inside the braced list. -/
theorem C5_separator_repair :
    fix_imports ("import \x7b foo renderApp \x7d from '@zen/tui';").toList =
      ("import \x7b foo, renderApp \x7d from '@zen/tui';").toList := by
  decide

/-- C2 (counterexample): the fixer is not idempotent.  On
`import \x7b renderApp renderApp renderApp \x7d from '@zen/tui';` the
separator repair consumes the first two names as one non-overlapping match,
leaving the second gap unrepaired; a second application changes the text
again. -/
theorem C2_counterexample :
    fix_imports (fix_imports
        ("import \x7b renderApp renderApp renderApp \x7d from '@zen/tui';").toList) ≠
      fix_imports
        ("import \x7b renderApp renderApp renderApp \x7d from '@zen/tui';").toList := by
  decide

theorem fixedStmt_pos {u : Bool} {stmt : List Char}
    (h : (u && !(containsSub flLit stmt)) = true) :
    fixedStmt u stmt = addFL (commaFix stmt) := by
  simp only [fixedStmt, h, if_true]

theorem fixedStmt_neg {u : Bool} {stmt : List Char}
    (h : (u && !(containsSub flLit stmt)) = false) :
    fixedStmt u stmt = commaFix stmt := by
  simp only [fixedStmt, h, Bool.false_eq_true, if_false]

/-- C1 (counterexample): on a file containing the marker `<FullscreenLayout>`
and the declaration `import \x7b renderApp \x7d from '@zen/tui';`, the output
claimed by the specification,
`import \x7b renderApp, FullscreenLayout \x7d from '@zen/tui';`, does not
occur in the fixer's output at all: the insertion consumes the blank between
`renderApp` and the closing brace. -/
theorem C1_counterexample :
    containsSub ("import \x7b renderApp, FullscreenLayout \x7d from '@zen/tui';").toList
      (fix_imports
        ("<FullscreenLayout>\nimport \x7b renderApp \x7d from '@zen/tui';").toList) =
      false ∧
    fix_imports ("<FullscreenLayout>\nimport \x7b renderApp \x7d from '@zen/tui';").toList ≠
      ("<FullscreenLayout>\nimport \x7b renderApp, FullscreenLayout \x7d from '@zen/tui';").toList := by
  decide

/-- C1 (amended): for a file `pre ++ decl ++ post` where `decl` is
`import \x7b renderApp \x7d from '@zen/tui';`, the usage marker occurs in the
file, and no position inside `pre` matches the import pattern, the fixer
rewrites the declaration to exactly
`import \x7b renderApp, FullscreenLayout\x7d from '@zen/tui';` — with no
blank before the closing brace, since the insertion consumes the whitespace
between the last identifier and the brace — and scans the remaining text
independently. -/
theorem C1_missing_symbol (pre post : List Char)
    (hu : containsSub markerLit
      (pre ++ (("import \x7b renderApp \x7d from '@zen/tui';").toList ++ post)) = true)
    (hpre : ∀ i, i < pre.length →
      matchImportAux
        ((pre ++ (("import \x7b renderApp \x7d from '@zen/tui';").toList ++ post)).drop i) =
        none) :
    fix_imports (pre ++ (("import \x7b renderApp \x7d from '@zen/tui';").toList ++ post)) =
      pre ++ (("import \x7b renderApp, FullscreenLayout\x7d from '@zen/tui';").toList ++
        fixScan true post) := by
  have hm : matchImportAux
      (("import \x7b renderApp \x7d from '@zen/tui';").toList ++ post) =
      some (("import \x7b renderApp \x7d").toList, post) :=
    matchImportAux_decl [' '] (" renderApp ").toList [' '] [' '] '\'' '\'' post
      (by decide) (by decide) (by decide) (by decide) (by decide) (by decide)
      (by decide) (by decide) (Or.inl rfl) (Or.inl rfl)
  have h1 : fix_imports
      (pre ++ (("import \x7b renderApp \x7d from '@zen/tui';").toList ++ post)) =
      fixScan true (pre ++ (("import \x7b renderApp \x7d from '@zen/tui';").toList ++ post)) := by
    simp only [fix_imports, hu]
  rw [h1, fixScan_frame true pre _ hpre, fixScan_cons_some hm]
  have h2 : fix_import_line true (("import \x7b renderApp \x7d").toList) =
      ("import \x7b renderApp, FullscreenLayout\x7d from '@zen/tui';").toList := by
    decide
  rw [h2]

theorem C1_missing_symbol_witness :
    containsSub markerLit
      (("<FullscreenLayout>\n").toList ++
        (("import \x7b renderApp \x7d from '@zen/tui';").toList ++ [])) = true ∧
    fix_imports (("<FullscreenLayout>\n").toList ++
        (("import \x7b renderApp \x7d from '@zen/tui';").toList ++ [])) =
      ("<FullscreenLayout>\n").toList ++
        (("import \x7b renderApp, FullscreenLayout\x7d from '@zen/tui';").toList ++
          fixScan true []) :=
  ⟨by decide,
   C1_missing_symbol (("<FullscreenLayout>\n").toList) [] (by decide) (by decide)⟩

/-- C3: a file whose content does not contain `renderApp` is reported
unchanged: the per-file processor returns `false`, performs no write, and
logs nothing, regardless of how a write would have behaved. -/
theorem C3_selectivity (path content : List Char) (w : Except (List Char) Unit)
    (h : containsSub raLit content = false) :
    process_file path (Except.ok content) w = (false, [], none) := by
  simp only [process_file, if_pos h]

theorem C3_selectivity_witness :
    containsSub raLit ("const x = 1;\n").toList = false ∧
    process_file ("a.tsx").toList (Except.ok ("const x = 1;\n").toList) (Except.ok ()) =
      (false, [], none) :=
  ⟨by decide, C3_selectivity _ _ (Except.ok ()) (by decide)⟩

/-- A well-formed, single-spaced declaration of the fixed module: the text
`import \x7b<inner>\x7d from <q1>@zen/tui<q2>; <post>` without the final
blank, where the quotes are the given characters. -/
def declTui (inner : List Char) (q1 q2 : Char) (post : List Char) : List Char :=
  impLit ++ [' '] ++ '\x7b' :: (inner ++ '\x7d' ::
    ([' '] ++ (fromLit ++ ([' '] ++ q1 :: (modLit ++ q2 :: ';' :: post)))))

/-- The group captured from `declTui`: `import \x7b<inner>\x7d`. -/
def stmtOf (inner : List Char) : List Char :=
  impLit ++ [' '] ++ '\x7b' :: (inner ++ '\x7d' :: [])

/-- C4 (counterexample): the per-file processor does not normalize the
quotes of every file containing a double-quoted declaration of the fixed
module: a file without `renderApp` is short-circuited, reported unchanged,
and never written, even though its declaration matches the import pattern
with double quotes. -/
theorem C4_counterexample :
    (matchImportAux ("import \x7b foo \x7d from \"@zen/tui\";").toList).isSome = true ∧
    process_file [] (Except.ok ("import \x7b foo \x7d from \"@zen/tui\";").toList)
      (Except.ok ()) = (false, [], none) := by
  decide

/-- C4 (amended): for a file that does contain `renderApp`, a well-formed
matched declaration of the fixed module in which either quote around the
module name is a double quote is rewritten with single quotes, and the
quote-style-only change counts as modified: the processor returns `true` and
writes the rewritten content.  The surrounding text is constrained to
contain no other match and the import list to need no other repair, so that
the quote change is the only difference. -/
theorem C4_quote_normalization (pre inner post : List Char) (q1 q2 : Char)
    (hin : inner ≠ []) (hain : inner.all notBrace = true)
    (hq1 : q1 = '\'' ∨ q1 = '"') (hq2 : q2 = '\'' ∨ q2 = '"')
    (hdq : q1 = '"' ∨ q2 = '"')
    (hra : containsSub raLit (pre ++ declTui inner q1 q2 post) = true)
    (hcf : commaFix (stmtOf inner) = stmtOf inner)
    (hbr : (containsSub markerLit (pre ++ declTui inner q1 q2 post)
        && !(containsSub flLit (stmtOf inner))) = false)
    (hpre : ∀ i, i < pre.length →
      matchImportAux ((pre ++ declTui inner q1 q2 post).drop i) = none)
    (hpost : ∀ i, matchImportAux (post.drop i) = none) :
    process_file [] (Except.ok (pre ++ declTui inner q1 q2 post)) (Except.ok ()) =
      (true, [pre ++ (stmtOf inner ++ (fromClause ++ post))], none) := by
  have hm : matchImportAux (declTui inner q1 q2 post) = some (stmtOf inner, post) :=
    matchImportAux_decl [' '] inner [' '] [' '] q1 q2 post
      (by decide) (by decide) hin hain (by decide) (by decide) (by decide) (by decide)
      hq1 hq2
  have hfix : fix_imports (pre ++ declTui inner q1 q2 post) =
      pre ++ (stmtOf inner ++ (fromClause ++ post)) := by
    simp only [fix_imports]
    rw [fixScan_frame _ pre _ hpre, fixScan_cons_some hm, fixScan_id _ post hpost]
    congr 1
    rw [fix_import_line, fixedStmt_neg hbr, hcf]
    simp [List.append_assoc]
  have hneq : fix_imports (pre ++ declTui inner q1 q2 post) ≠
      pre ++ declTui inner q1 q2 post := by
    rw [hfix]
    intro heq
    have heq2 := List.append_cancel_left heq
    simp only [stmtOf, declTui, fromClause, impLit, fromLit, modLit, List.cons_append,
      List.nil_append, List.append_assoc, List.cons.injEq, true_and] at heq2
    have h3 := List.append_cancel_left heq2
    rcases hdq with rfl | rfl <;> simp at h3
  simp only [process_file, if_neg (by simp [hra] :
    ¬containsSub raLit (pre ++ declTui inner q1 q2 post) = false)]
  rw [if_pos hneq, hfix]

theorem C4_quote_normalization_witness :
    containsSub raLit ([] ++ declTui (" foo, renderApp ").toList '"' '"' []) = true ∧
    commaFix (stmtOf (" foo, renderApp ").toList) = stmtOf (" foo, renderApp ").toList ∧
    process_file []
        (Except.ok ([] ++ declTui (" foo, renderApp ").toList '"' '"' []))
        (Except.ok ()) =
      (true, [[] ++ (stmtOf (" foo, renderApp ").toList ++ (fromClause ++ []))], none) :=
  ⟨by decide, by decide,
   C4_quote_normalization [] (" foo, renderApp ").toList [] '"' '"'
     (by decide) (by decide) (Or.inr rfl) (Or.inr rfl) (Or.inl rfl)
     (by decide) (by decide) (by decide)
     (by intro i hi; exact absurd hi (Nat.not_lt_zero i))
     (by intro i; rw [List.drop_nil]; rfl)⟩

/-- C2 (amended): re-fixing a fixed statement is the identity once its
separator repair has reached a fixpoint: if the comma repair no longer
changes the repaired statement, then applying the whole per-statement repair
a second time gives the same statement; in particular the missing-symbol
repair never fires a second time, so no duplicate `FullscreenLayout` is ever
inserted. -/
theorem C2_idempotent_on_separator_fixpoint (u : Bool) (stmt : List Char)
    (h : commaFix (fixedStmt u stmt) = fixedStmt u stmt) :
    fixedStmt u (fixedStmt u stmt) = fixedStmt u stmt := by
  show (if u && !(containsSub flLit (fixedStmt u stmt)) then
      addFL (commaFix (fixedStmt u stmt)) else commaFix (fixedStmt u stmt)) =
    fixedStmt u stmt
  rw [h]
  cases hb : u && !(containsSub flLit (fixedStmt u stmt)) with
  | false => simp
  | true =>
    rw [if_pos rfl]
    rw [Bool.and_eq_true, Bool.not_eq_true'] at hb
    obtain ⟨hu, hfl⟩ := hb
    subst hu
    by_cases hb0 : (true && !(containsSub flLit stmt)) = true
    · have hs' : fixedStmt true stmt = addFL (commaFix stmt) := fixedStmt_pos hb0
      rcases addFL_eq_or_infix (commaFix stmt) with he | hinf
      · rw [hs', he]
        exact he
      · exfalso
        rw [← hs'] at hinf
        rw [(containsSub_iff _ _).mpr hinf] at hfl
        cases hfl
    · have hb0' : (true && !(containsSub flLit stmt)) = false := by
        revert hb0
        cases containsSub flLit stmt <;> simp
      have hflstmt : containsSub flLit stmt = true := by
        revert hb0
        cases hc : containsSub flLit stmt <;> simp
      have hs' : fixedStmt true stmt = commaFix stmt := fixedStmt_neg hb0'
      have hinf : flLit <:+: commaFix stmt :=
        commaFix_infix_fl ((containsSub_iff _ _).mp hflstmt)
      exfalso
      rw [← hs'] at hinf
      rw [(containsSub_iff _ _).mpr hinf] at hfl
      cases hfl

theorem C2_idempotent_on_separator_fixpoint_witness :
    commaFix (fixedStmt true ("import \x7b renderApp \x7d").toList) =
      fixedStmt true ("import \x7b renderApp \x7d").toList ∧
    fixedStmt true (fixedStmt true ("import \x7b renderApp \x7d").toList) =
      fixedStmt true ("import \x7b renderApp \x7d").toList :=
  ⟨by decide,
   C2_idempotent_on_separator_fixpoint true ("import \x7b renderApp \x7d").toList (by decide)⟩

/-- C6: if `FullscreenLayout` already appears in the matched import
statement, the missing-symbol repair is skipped entirely — the replacement
is just the comma-repaired statement followed by the normalized trailing
clause — and `FullscreenLayout` is still present in the repaired statement,
so no second copy is ever added. -/
theorem C6_no_duplicate (u : Bool) (stmt : List Char)
    (h : containsSub flLit stmt = true) :
    fix_import_line u stmt = commaFix stmt ++ fromClause ∧
    flLit <:+: commaFix stmt := by
  constructor
  · have hb : (u && !(containsSub flLit stmt)) = false := by
      rw [h]
      cases u <;> rfl
    rw [fix_import_line, fixedStmt_neg hb]
  · exact commaFix_infix_fl ((containsSub_iff _ _).mp h)

theorem C6_no_duplicate_witness :
    containsSub flLit ("import \x7b FullscreenLayout \x7d").toList = true ∧
    fix_import_line true ("import \x7b FullscreenLayout \x7d").toList =
      commaFix ("import \x7b FullscreenLayout \x7d").toList ++ fromClause ∧
    flLit <:+: commaFix ("import \x7b FullscreenLayout \x7d").toList :=
  ⟨by decide, C6_no_duplicate true ("import \x7b FullscreenLayout \x7d").toList (by decide)⟩

theorem matchNone_all_of_bounded {s : List Char}
    (h : ∀ i, i < s.length → matchImportAux (s.drop i) = none) :
    ∀ i, matchImportAux (s.drop i) = none := by
  intro i
  by_cases hi : i < s.length
  · exact h i hi
  · rw [List.drop_of_length_le (Nat.le_of_not_lt hi)]
    rfl

/-- C7: the scan is a frame-preserving, independent, order-preserving
replacement: (1) text in which no position matches the import pattern is
emitted verbatim before the rest of the scan; (2) each match is replaced by
its repaired form and the scan resumes independently after it; (3) a text
with no match at any position is returned unchanged; (4) a well-formed
declaration whose module string is anything other than `@zen/tui` never
matches the pattern, hence is never altered. -/
theorem C7_untouched_and_independent :
    (∀ (u : Bool) (p s : List Char),
      (∀ i, i < p.length → matchImportAux ((p ++ s).drop i) = none) →
      fixScan u (p ++ s) = p ++ fixScan u s) ∧
    (∀ (u : Bool) (s g rest : List Char), matchImportAux s = some (g, rest) →
      fixScan u s = fix_import_line u g ++ fixScan u rest) ∧
    (∀ (u : Bool) (s : List Char), (∀ i, matchImportAux (s.drop i) = none) →
      fixScan u s = s) ∧
    (∀ (ws1 inner ws2 ws3 : List Char) (q1 q2 : Char) (m r : List Char),
      ws1 ≠ [] → ws1.all isSpace = true → inner ≠ [] → inner.all notBrace = true →
      ws2 ≠ [] → ws2.all isSpace = true → ws3 ≠ [] → ws3.all isSpace = true →
      (q1 = '\'' ∨ q1 = '"') → (q2 = '\'' ∨ q2 = '"') →
      m.all (fun c => !(c == '\'') && !(c == '"')) = true → m ≠ modLit →
      matchImportAux (impLit ++ ws1 ++ '\x7b' :: (inner ++ '\x7d' :: (ws2 ++ (fromLit ++
        (ws3 ++ q1 :: (m ++ (q2 :: ';' :: r))))))) = none) :=
  ⟨fixScan_frame, fun _ _ _ _ h => fixScan_cons_some h, fixScan_id,
   matchImportAux_decl_other⟩

theorem C7_untouched_and_independent_witness :
    fixScan false (("xx ").toList ++ ("import \x7b renderApp \x7d from '@zen/tui';").toList) =
      ("xx ").toList ++ fixScan false ("import \x7b renderApp \x7d from '@zen/tui';").toList ∧
    fixScan false ("import \x7b a \x7d from '@zen/tui';").toList =
      fix_import_line false ("import \x7b a \x7d").toList ++ fixScan false [] ∧
    fixScan false ("import \x7b a \x7d from '@other/mod';").toList =
      ("import \x7b a \x7d from '@other/mod';").toList ∧
    matchImportAux ("import \x7b a \x7d from \"@other/mod\";").toList = none :=
  ⟨C7_untouched_and_independent.1 false (("xx ").toList)
     (("import \x7b renderApp \x7d from '@zen/tui';").toList) (by decide),
   C7_untouched_and_independent.2.1 false (("import \x7b a \x7d from '@zen/tui';").toList)
     (("import \x7b a \x7d").toList) [] (by decide),
   C7_untouched_and_independent.2.2.1 false
     (("import \x7b a \x7d from '@other/mod';").toList)
     (matchNone_all_of_bounded (by decide)),
   C7_untouched_and_independent.2.2.2 [' '] ((" a ").toList) [' '] [' '] '"' '"'
     (("@other/mod").toList) [] (by decide) (by decide) (by decide) (by decide)
     (by decide) (by decide) (by decide) (by decide) (Or.inr rfl) (Or.inr rfl)
     (by decide) (by decide)⟩

theorem foldl_count_shift :
    ∀ (fs : List (List Char × Except (List Char) (List Char) × Except (List Char) Unit))
      (n : Nat),
    fs.foldl (fun acc f => if (process_file f.1 f.2.1 f.2.2).1 then acc + 1 else acc) n =
      n + fs.foldl
        (fun acc f => if (process_file f.1 f.2.1 f.2.2).1 then acc + 1 else acc) 0 := by
  intro fs
  induction fs with
  | nil => intro n; simp
  | cons f fs ih =>
    intro n
    cases hb : (process_file f.1 f.2.1 f.2.2).1 with
    | false =>
      simp only [List.foldl_cons, hb, Bool.false_eq_true, if_false]
      exact ih n
    | true =>
      simp only [List.foldl_cons, hb, if_true]
      rw [ih (n + 1), ih (0 + 1)]
      omega

/-- C8: read and write failures are caught and logged: (1) a failing read
yields a `false` result, no write attempt and the error line with the path
and message; (2) a failing write, reached only after a repair produced
different content, also yields `false` with the error line (the single write
attempt is recorded); (3) every invocation attempts at most one write, and
only with content that differs from what was read; (4) the walk processes
each file independently, so a failing file contributes nothing to the count
and the walk continues with the remaining files. -/
theorem C8_error_handling :
    (∀ (path e : List Char) (w : Except (List Char) Unit),
      process_file path (Except.error e) w = (false, [], some (errLog path e))) ∧
    (∀ (path c e : List Char), containsSub raLit c = true → fix_imports c ≠ c →
      process_file path (Except.ok c) (Except.error e) =
        (false, [fix_imports c], some (errLog path e))) ∧
    (∀ (path : List Char) (r : Except (List Char) (List Char))
        (w : Except (List Char) Unit),
      (process_file path r w).2.1.length ≤ 1 ∧
      (∀ x, x ∈ (process_file path r w).2.1 →
        ∃ c, r = Except.ok c ∧ x = fix_imports c ∧ x ≠ c)) ∧
    (∀ (f : List Char × Except (List Char) (List Char) × Except (List Char) Unit)
        (fs : List (List Char × Except (List Char) (List Char) × Except (List Char) Unit)),
      main_walk (f :: fs) =
        (if (process_file f.1 f.2.1 f.2.2).1 then 1 else 0) + main_walk fs) := by
  refine ⟨?_, ?_, ?_, ?_⟩
  · intro path e w
    rfl
  · intro path c e h1 h2
    simp only [process_file, if_neg (by simp [h1] : ¬containsSub raLit c = false),
      if_pos h2]
  · intro path r w
    cases r with
    | error e =>
      exact ⟨by simp [process_file], by intro x hx; simp [process_file] at hx⟩
    | ok c =>
      by_cases h1 : containsSub raLit c = false
      · constructor
        · simp [process_file, if_pos h1]
        · intro x hx
          simp only [process_file, if_pos h1] at hx
          simp at hx
      · by_cases h2 : fix_imports c ≠ c
        · cases w with
          | error e =>
            constructor
            · simp only [process_file, if_neg h1, if_pos h2]
              simp
            · intro x hx
              simp only [process_file, if_neg h1, if_pos h2] at hx
              simp at hx
              exact ⟨c, rfl, hx, hx ▸ h2⟩
          | ok u =>
            constructor
            · simp only [process_file, if_neg h1, if_pos h2]
              simp
            · intro x hx
              simp only [process_file, if_neg h1, if_pos h2] at hx
              simp at hx
              exact ⟨c, rfl, hx, hx ▸ h2⟩
        · constructor
          · simp only [process_file, if_neg h1, if_neg h2]
            simp
          · intro x hx
            simp only [process_file, if_neg h1, if_neg h2] at hx
            simp at hx
  · intro f fs
    simp only [main_walk, List.foldl_cons]
    rw [foldl_count_shift fs]

theorem C8_error_handling_witness :
    process_file ("f.tsx").toList (Except.error ("EACCES").toList) (Except.ok ()) =
      (false, [], some (errLog ("f.tsx").toList ("EACCES").toList)) ∧
    (containsSub raLit ("import \x7brenderApp\x7d  from '@zen/tui';").toList = true ∧
     fix_imports ("import \x7brenderApp\x7d  from '@zen/tui';").toList ≠
       ("import \x7brenderApp\x7d  from '@zen/tui';").toList ∧
     process_file ("g.tsx").toList
         (Except.ok ("import \x7brenderApp\x7d  from '@zen/tui';").toList)
         (Except.error ("ENOSPC").toList) =
       (false, [fix_imports ("import \x7brenderApp\x7d  from '@zen/tui';").toList],
         some (errLog ("g.tsx").toList ("ENOSPC").toList))) ∧
    (process_file [] (Except.ok ("import \x7brenderApp\x7d  from '@zen/tui';").toList)
        (Except.ok ())).2.1.length ≤ 1 ∧
    main_walk [(("a.tsx").toList, Except.error ("boom").toList, Except.ok ())] =
      (if (process_file ("a.tsx").toList (Except.error ("boom").toList)
          (Except.ok ())).1 then 1 else 0) + main_walk [] :=
  ⟨C8_error_handling.1 _ _ _,
   ⟨by decide, by decide,
    C8_error_handling.2.1 _ _ _ (by decide) (by decide)⟩,
   (C8_error_handling.2.2.1 [] _ _).1,
   C8_error_handling.2.2.2 _ []⟩

/-- C9: the missing-symbol check is a plain substring test on the matched
statement, so an identifier that merely contains `FullscreenLayout` as a
substring (here `FullscreenLayoutProps`) suppresses the insertion: with the
usage marker present and `FullscreenLayout` itself not imported, the file is
returned unchanged. -/
theorem C9_substring_suppression :
    containsSub markerLit
      ("<FullscreenLayout>\nimport \x7b renderApp, FullscreenLayoutProps \x7d from '@zen/tui';").toList =
      true ∧
    fix_imports
      ("<FullscreenLayout>\nimport \x7b renderApp, FullscreenLayoutProps \x7d from '@zen/tui';").toList =
      ("<FullscreenLayout>\nimport \x7b renderApp, FullscreenLayoutProps \x7d from '@zen/tui';").toList := by
  decide

/-- C10: every replaced declaration is reconstructed as a repaired statement
followed by the fixed clause ` from '@zen/tui';`, the repaired statement
being the comma-repaired list with or without the symbol insertion; a file
can therefore be reported and rewritten as modified purely because of
whitespace (here the doubled blank before `from` is normalized), and the
symbol insertion consumes the whitespace before the closing brace. -/
theorem C10_layout_normalization :
    (∀ (u : Bool) (stmt : List Char),
      fix_import_line u stmt = fixedStmt u stmt ++ fromClause ∧
      (fixedStmt u stmt = commaFix stmt ∨ fixedStmt u stmt = addFL (commaFix stmt))) ∧
    process_file [] (Except.ok ("import \x7brenderApp\x7d  from '@zen/tui';").toList)
        (Except.ok ()) =
      (true, [("import \x7brenderApp\x7d from '@zen/tui';").toList], none) ∧
    fix_import_line true ("import \x7b renderApp \x7d").toList =
      ("import \x7b renderApp, FullscreenLayout\x7d from '@zen/tui';").toList := by
  refine ⟨?_, by decide, by decide⟩
  intro u stmt
  refine ⟨rfl, ?_⟩
  cases hb : (u && !(containsSub flLit stmt)) with
  | true => exact Or.inr (fixedStmt_pos hb)
  | false => exact Or.inl (fixedStmt_neg hb)
